import Mathlib

/-!
Verification of the core algorithms of the `claudiofsr_lib` utility library:
the approximately-equal slice chunker (`src/slice.rs`) and the
unique-preserving filters (`src/unique.rs`), shallowly embedded over `List`.
-/

namespace ClaudiofsrLib

/-- Rust `usize::div_ceil`: quotient rounded up.  The Rust implementation is
`let d = a / b; let r = a % b; if r > 0 { d + 1 } else { d }`. -/
def divCeil (a b : Nat) : Nat :=
  if a % b > 0 then a / b + 1 else a / b

/-- Embedding of the `ChunksAtMost` iterator of `src/slice.rs`, run to
exhaustion.  `ChunksAtMost::next` returns `None` when `chunk_size == 0` or the
remaining slice is empty; otherwise it computes
`group_number = len.div_ceil(chunk_size)`, splits the slice there, keeps the
tail and decrements `chunk_size`.  The second argument is `chunk_size`; the
recursion is on it, exactly as the iterator decrements it each step. -/
def chunksAtMost {α : Type} : List α → Nat → List (List α)
  | _, 0 => []
  | data, k + 1 =>
    if data.isEmpty then []
    else
      data.take (divCeil data.length (k + 1))
        :: chunksAtMost (data.drop (divCeil data.length (k + 1))) k

-- Sanity checks against the doc tests of `src/slice.rs`.
example : chunksAtMost ([3, 67, 0, 9] : List Nat) 0 = [] := by decide
example : chunksAtMost ([3, 67, 0, 9] : List Nat) 1 = [[3, 67, 0, 9]] := by decide
example : chunksAtMost ([3, 67, 0, 9] : List Nat) 2 = [[3, 67], [0, 9]] := by decide
example : chunksAtMost ([3, 67, 0, 9] : List Nat) 3 = [[3, 67], [0], [9]] := by decide
example : chunksAtMost ([3, 67, 0, 9] : List Nat) 4 = [[3], [67], [0], [9]] := by decide
example : chunksAtMost ([3, 67, 0, 9] : List Nat) 5 = [[3], [67], [0], [9]] := by decide
example :
    chunksAtMost ((List.range 25).map (· + 1)) 4 =
      [[1, 2, 3, 4, 5, 6, 7], [8, 9, 10, 11, 12, 13],
       [14, 15, 16, 17, 18, 19], [20, 21, 22, 23, 24, 25]] := by decide

/-- Embedding of `UniqueIterator::next` of `src/unique.rs`, run to exhaustion.
`next` is `self.iter.find(|item| self.seen.insert(item.clone()))`: it scans the
source, skipping items already in the `seen` hash set and emitting (and
recording) each first-seen item.  The `HashSet` is modelled as the list of
values inserted so far, membership by value equality. -/
def uniqueAux {α : Type} [DecidableEq α] : List α → List α → List α
  | [], _ => []
  | x :: xs, seen =>
    if x ∈ seen then uniqueAux xs seen else x :: uniqueAux xs (x :: seen)

/-- Embedding of `IteratorExt::get_unique` (`UniqueIterator::new(self)`), run
to exhaustion: the unique filter started with an empty `seen` set. -/
def getUnique {α : Type} [DecidableEq α] (l : List α) : List α :=
  uniqueAux l []

/-- Embedding of `Vec::retain` with the stateful closure
`|item| seen.insert(item.clone())` used by `UniqueElements::unique`:
a single in-order scan keeping exactly the items whose insertion into the
seen set succeeds. -/
def retainSeen {α : Type} [DecidableEq α] : List α → List α → List α
  | [], _ => []
  | x :: xs, seen =>
    if x ∈ seen then retainSeen xs seen else x :: retainSeen xs (x :: seen)

/-- Embedding of `UniqueElements::unique` of `src/unique.rs`:
`let mut seen = HashSet::new(); self.retain(|item| seen.insert(item.clone()))`. -/
def vecUnique {α : Type} [DecidableEq α] (v : List α) : List α :=
  retainSeen v []

/-- Embedding of Rust `Vec::dedup`: removes consecutive repeated elements,
keeping the first element of each run. -/
def dedupAdjacent {α : Type} [DecidableEq α] : List α → List α
  | [] => []
  | [x] => [x]
  | x :: y :: rest =>
    if x = y then dedupAdjacent (y :: rest) else x :: dedupAdjacent (y :: rest)

/-- Embedding of `UniqueElements::unique_ordered` of `src/unique.rs`:
`self.sort_unstable(); self.dedup()`.  `sort_unstable` sorts ascending by
`Ord`, modelled by `List.mergeSort` with `(· ≤ ·)`. -/
def uniqueOrdered {α : Type} [LinearOrder α] (v : List α) : List α :=
  dedupAdjacent (List.mergeSort v (fun a b => a ≤ b))

/-- Reference definition rendering the spec sentence describing the unique
filters: "the subsequence of `s` consisting of exactly the first occurrence of
each distinct value, in original order".  It keeps each head and discards its
later duplicates.  Used only to compare the embedded code against the spec. -/
def keepFirsts {α : Type} [DecidableEq α] : List α → List α
  | [] => []
  | x :: xs => x :: keepFirsts (xs.filter (fun y => y ≠ x))
termination_by l => l.length
decreasing_by
  simp only [List.length_cons]
  exact Nat.lt_succ_of_le (List.length_filter_le _ _)

-- Sanity checks against the doc tests of `src/unique.rs`.
example : getUnique ([1, 3, 2, 2, 5, 2, 3, 4] : List Nat) = [1, 3, 2, 5, 4] := by decide
example : vecUnique ([1, 3, 1, 2, 2, 4, 3] : List Nat) = [1, 3, 2, 4] := by decide
example : vecUnique ([1, 4, 3, 4, 5, 4, 3, 4, 2, 3] : List Nat) = [1, 4, 3, 5, 2] := by decide
unseal keepFirsts in
example : keepFirsts ([1, 3, 2, 2, 5, 2, 3, 4] : List Nat) = [1, 3, 2, 5, 4] := by decide

unseal List.merge List.mergeSort in
example : uniqueOrdered ([1, 3, 1, 2, 2, 4, 3] : List Nat) = [1, 2, 3, 4] := by decide

unseal List.merge List.mergeSort in
example : uniqueOrdered ([1, 2, 4, 2, 5, 3, 2] : List Nat) = [1, 2, 3, 4, 5] := by decide

/-! ### Chunking lemmas -/

theorem divCeil_pos {n k : Nat} (hn : 1 ≤ n) (_hk : 1 ≤ k) : 1 ≤ divCeil n k := by
  unfold divCeil
  have hq := Nat.div_add_mod n k
  by_cases h : n % k > 0
  · simp [h]
  · simp [h]
    rcases Nat.eq_zero_or_pos (n / k) with h0 | h1
    · rw [h0] at hq; omega
    · exact h1

theorem divCeil_le {n k : Nat} (hk : 1 ≤ k) : divCeil n k ≤ n := by
  unfold divCeil
  by_cases h : n % k > 0
  · simp [h]
    have hk1 : 1 < k := by
      by_contra hle
      have hk1 : k = 1 := by omega
      rw [hk1, Nat.mod_one] at h
      omega
    have hn : 0 < n := by
      by_contra hn0
      have hn0' : n = 0 := by omega
      rw [hn0', Nat.zero_mod] at h
      omega
    exact Nat.div_lt_self hn hk1
  · simp [h]
    exact Nat.div_le_self n k

theorem chunksAtMost_zero {α : Type} (data : List α) : chunksAtMost data 0 = [] := rfl

theorem chunksAtMost_nil {α : Type} (n : Nat) : chunksAtMost ([] : List α) n = [] := by
  cases n <;> simp [chunksAtMost]

theorem chunksAtMost_succ {α : Type} (data : List α) (k : Nat) (h : data.isEmpty = false) :
    chunksAtMost data (k + 1)
      = data.take (divCeil data.length (k + 1))
        :: chunksAtMost (data.drop (divCeil data.length (k + 1))) k := by
  simp [chunksAtMost, h]

/-- The central characterisation of the chunk lengths: splitting a list of
length `len` into `k` chunks (with `1 ≤ k ≤ len`) yields first `len % k`
chunks of length `len / k + 1`, then `k - len % k` chunks of length `len / k`. -/
theorem chunksAtMost_map_length {α : Type} :
    ∀ (k : Nat) (data : List α), 1 ≤ k → k ≤ data.length →
      (chunksAtMost data k).map List.length =
        List.replicate (data.length % k) (data.length / k + 1) ++
          List.replicate (k - data.length % k) (data.length / k) := by
  intro k
  induction k with
  | zero => intro data h1 _; omega
  | succ k ih =>
    intro data _ hlen
    have hne : data.isEmpty = false := by
      cases data with
      | nil => simp at hlen
      | cons a as => rfl
    rw [chunksAtMost_succ data k hne]
    have hq := Nat.div_add_mod data.length (k + 1)
    have hr : data.length % (k + 1) < k + 1 := Nat.mod_lt _ (by omega)
    rw [add_one_mul] at hq
    unfold divCeil
    by_cases hr0 : data.length % (k + 1) = 0
    · -- even division: every chunk has length q = len / (k+1)
      rw [if_neg (by omega : ¬ data.length % (k + 1) > 0)]
      rw [List.map_cons, List.length_take,
        Nat.min_eq_left (Nat.div_le_self data.length (k + 1))]
      cases k with
      | zero =>
        rw [chunksAtMost_zero]
        simp [Nat.mod_one, Nat.div_one]
      | succ j =>
        have hq1 : 1 ≤ data.length / (j + 1 + 1) :=
          (Nat.one_le_div_iff (by omega)).mpr hlen
        have hkq := Nat.le_mul_of_pos_right (j + 1) hq1
        have hA : (data.drop (data.length / (j + 1 + 1))).length
            = (j + 1) * (data.length / (j + 1 + 1)) := by
          rw [List.length_drop]; omega
        rw [ih (data.drop (data.length / (j + 1 + 1))) (by omega) (by omega)]
        rw [hA, Nat.mul_mod_right, Nat.mul_div_cancel_left _ (by omega : 0 < j + 1)]
        rw [hr0]
        simp [List.replicate_succ]
    · -- uneven division: the head chunk has length q + 1
      rw [if_pos (by omega : data.length % (k + 1) > 0)]
      cases k with
      | zero => omega
      | succ j =>
        rw [List.map_cons, List.length_take,
          Nat.min_eq_left (by omega : data.length / (j + 1 + 1) + 1 ≤ data.length)]
        have hq1 : 1 ≤ data.length / (j + 1 + 1) :=
          (Nat.one_le_div_iff (by omega)).mpr hlen
        have hkq := Nat.le_mul_of_pos_right (j + 1) hq1
        have hA : (data.drop (data.length / (j + 1 + 1) + 1)).length
            = (j + 1) * (data.length / (j + 1 + 1))
              + (data.length % (j + 1 + 1) - 1) := by
          rw [List.length_drop]; omega
        have hmod : ((j + 1) * (data.length / (j + 1 + 1))
              + (data.length % (j + 1 + 1) - 1)) % (j + 1)
            = data.length % (j + 1 + 1) - 1 := by
          rw [Nat.mul_add_mod]
          exact Nat.mod_eq_of_lt (by omega)
        have hdiv : ((j + 1) * (data.length / (j + 1 + 1))
              + (data.length % (j + 1 + 1) - 1)) / (j + 1)
            = data.length / (j + 1 + 1) := by
          rw [Nat.mul_add_div (by omega : 0 < j + 1)]
          rw [show (data.length % (j + 1 + 1) - 1) / (j + 1) = 0 from
            Nat.div_eq_of_lt (by omega)]
          omega
        have hlen2 : j + 1 ≤ (data.drop (data.length / (j + 1 + 1) + 1)).length := by
          rw [hA]; omega
        rw [ih (data.drop (data.length / (j + 1 + 1) + 1)) (by omega) hlen2]
        rw [hA, hmod, hdiv]
        generalize hs : data.length % (j + 1 + 1) - 1 = s
        rw [show data.length % (j + 1 + 1) = s + 1 from by omega]
        rw [List.replicate_succ, List.cons_append]
        rw [show j + 1 + 1 - (s + 1) = j + 1 - s from by omega]

/-- When the requested group count is at least the length, every emitted chunk
is a singleton: the lengths are `data.length` copies of `1`. -/
theorem chunksAtMost_map_length_of_le {α : Type} :
    ∀ (k : Nat) (data : List α), data.length ≤ k →
      (chunksAtMost data k).map List.length = List.replicate data.length 1 := by
  intro k
  induction k with
  | zero =>
    intro data h
    rw [chunksAtMost_zero]
    have h0 : data.length = 0 := by omega
    rw [h0]
    rfl
  | succ k ih =>
    intro data h
    cases data with
    | nil => rw [chunksAtMost_nil]; rfl
    | cons a as =>
      have hg : divCeil (a :: as).length (k + 1) = 1 := by
        unfold divCeil
        by_cases heq : (a :: as).length = k + 1
        · rw [heq]
          simp [Nat.mod_self, Nat.div_self]
        · have hlt : (a :: as).length < k + 1 := by omega
          rw [Nat.mod_eq_of_lt hlt, Nat.div_eq_of_lt hlt]
          have hpos : (a :: as).length > 0 := by simp
          simp [hpos]
      rw [chunksAtMost_succ (a :: as) k rfl, hg]
      have hdrop : (a :: as).drop 1 = as := rfl
      have htake : ((a :: as).take 1).length = 1 := rfl
      rw [List.map_cons, htake, hdrop]
      rw [ih as (by simp at h; omega)]
      rfl

/-- The length of any emitted chunk, when `1 ≤ k ≤ data.length`, is either the
floor or the ceiling of `data.length / k`. -/
theorem chunk_length_cases {α : Type} {data : List α} {k : Nat} (hk : 1 ≤ k)
    (hlen : k ≤ data.length) {c : List α} (hc : c ∈ chunksAtMost data k) :
    c.length = data.length / k ∨ c.length = data.length / k + 1 := by
  have h := chunksAtMost_map_length k data hk hlen
  have hmem : c.length ∈ (chunksAtMost data k).map List.length :=
    List.mem_map_of_mem List.length hc
  rw [h] at hmem
  rcases List.mem_append.mp hmem with hm | hm
  · right; exact List.eq_of_mem_replicate hm
  · left; exact List.eq_of_mem_replicate hm

/-- When the requested group count is at least the length, every emitted chunk
has length exactly 1. -/
theorem chunk_length_one {α : Type} {data : List α} {k : Nat}
    (hlen : data.length ≤ k) {c : List α} (hc : c ∈ chunksAtMost data k) :
    c.length = 1 := by
  have h := chunksAtMost_map_length_of_le k data hlen
  have hmem : c.length ∈ (chunksAtMost data k).map List.length :=
    List.mem_map_of_mem List.length hc
  rw [h] at hmem
  exact List.eq_of_mem_replicate hmem

/-- Every chunk the iterator ever emits is non-empty, for every input and
every requested group count. -/
theorem chunks_mem_ne_nil {α : Type} :
    ∀ (k : Nat) (data : List α), ∀ c ∈ chunksAtMost data k, c ≠ [] := by
  intro k
  induction k with
  | zero =>
    intro data c hc
    rw [chunksAtMost_zero] at hc
    exact absurd hc (List.not_mem_nil c)
  | succ k ih =>
    intro data c hc
    cases data with
    | nil =>
      rw [chunksAtMost_nil] at hc
      exact absurd hc (List.not_mem_nil c)
    | cons a as =>
      rw [chunksAtMost_succ (a :: as) k rfl] at hc
      rcases List.mem_cons.mp hc with hc | hc
      · subst hc
        have hg : 1 ≤ divCeil (a :: as).length (k + 1) :=
          divCeil_pos (by simp) (by omega)
        intro hnil
        have hlen0 := congrArg List.length hnil
        rw [List.length_take, List.length_nil] at hlen0
        have hlen1 : (a :: as).length = as.length + 1 := by simp
        omega
      · exact ih _ c hc

/-- The iterator emits at most `min k data.length` chunks: it terminates. -/
theorem chunks_length_le {α : Type} :
    ∀ (k : Nat) (data : List α),
      (chunksAtMost data k).length ≤ min k data.length := by
  intro k
  induction k with
  | zero => intro data; rw [chunksAtMost_zero]; simp
  | succ k ih =>
    intro data
    cases data with
    | nil => rw [chunksAtMost_nil]; simp
    | cons a as =>
      rw [chunksAtMost_succ (a :: as) k rfl, List.length_cons]
      have hg : 1 ≤ divCeil (a :: as).length (k + 1) :=
        divCeil_pos (by simp) (by omega)
      have hdl : ((a :: as).drop (divCeil (a :: as).length (k + 1))).length
          = (a :: as).length - divCeil (a :: as).length (k + 1) :=
        List.length_drop _ _
      have h := ih ((a :: as).drop (divCeil (a :: as).length (k + 1)))
      rw [hdl] at h
      have hlen : (a :: as).length = as.length + 1 := by simp
      omega

/-- Concatenating the chunks reproduces the input whenever the requested group
count is positive (or the input is empty). -/
theorem chunksAtMost_join {α : Type} :
    ∀ (k : Nat) (data : List α), 1 ≤ k ∨ data = [] →
      (chunksAtMost data k).flatten = data := by
  intro k
  induction k with
  | zero =>
    intro data h
    rcases h with h | h
    · omega
    · rw [h, chunksAtMost_nil]; rfl
  | succ k ih =>
    intro data _
    cases data with
    | nil => rw [chunksAtMost_nil]; rfl
    | cons a as =>
      rw [chunksAtMost_succ (a :: as) k rfl, List.flatten_cons]
      cases k with
      | zero =>
        have hg : divCeil (a :: as).length 1 = (a :: as).length := by
          unfold divCeil
          simp [Nat.mod_one, Nat.div_one]
        rw [hg, chunksAtMost_zero]
        simp
      | succ j =>
        rw [ih ((a :: as).drop (divCeil (a :: as).length (j + 1 + 1)))
          (Or.inl (by omega))]
        exact List.take_append_drop _ (a :: as)

/-! ### Claim theorems for the chunker -/

/-- C1 (counterexample): the claim quantifies over `group_count = 0` as well;
at `data = [0]`, `group_count = 0` the iterator emits zero chunks, so the chunk
lengths sum to `0`, not to `len(data) = 1`.  The claim as stated is false. -/
theorem chunks_count_sum_counterexample :
    0 ≤ ([(0 : Nat)]).length ∧
      ¬ ((chunksAtMost [(0 : Nat)] 0).length = 0 ∧
          ((chunksAtMost [(0 : Nat)] 0).map List.length).sum
            = ([(0 : Nat)]).length) := by
  decide

/-- C1 (amended): for every `data` and every `group_count` with
`1 ≤ group_count ≤ len(data)`, the iterator yields exactly `group_count`
chunks and their lengths sum to `len(data)`. -/
theorem chunks_count_and_sum {α : Type} (data : List α) (k : Nat)
    (hk : 1 ≤ k) (hlen : k ≤ data.length) :
    (chunksAtMost data k).length = k ∧
      ((chunksAtMost data k).map List.length).sum = data.length := by
  have h := chunksAtMost_map_length k data hk hlen
  have hr : data.length % k < k := Nat.mod_lt _ (by omega)
  constructor
  · have hcount := congrArg List.length h
    rw [List.length_map, List.length_append,
      List.length_replicate, List.length_replicate] at hcount
    omega
  · rw [h, List.sum_append, List.sum_replicate, List.sum_replicate,
      smul_eq_mul, smul_eq_mul]
    have hq := Nat.div_add_mod data.length k
    have h1 : data.length % k * (data.length / k + 1)
        = data.length % k * (data.length / k) + data.length % k := by ring
    have h2 : (k - data.length % k) * (data.length / k)
        = k * (data.length / k) - data.length % k * (data.length / k) :=
      Nat.sub_mul _ _ _
    have h3 : data.length % k * (data.length / k) ≤ k * (data.length / k) :=
      Nat.mul_le_mul_right _ (le_of_lt hr)
    omega

theorem chunks_count_and_sum_witness :
    (chunksAtMost [(10 : Nat), 20, 30, 40, 50] 2).length = 2 ∧
      ((chunksAtMost [(10 : Nat), 20, 30, 40, 50] 2).map List.length).sum
        = ([(10 : Nat), 20, 30, 40, 50]).length :=
  chunks_count_and_sum [(10 : Nat), 20, 30, 40, 50] 2 (by decide) (by decide)

/-- C3: any two chunks emitted for the same input differ in length by at most
one, for every input and every requested group count. -/
theorem chunks_balanced {α : Type} (data : List α) (k : Nat) :
    ∀ c₁ ∈ chunksAtMost data k, ∀ c₂ ∈ chunksAtMost data k,
      c₁.length ≤ c₂.length + 1 := by
  intro c₁ h₁ c₂ h₂
  cases k with
  | zero =>
    rw [chunksAtMost_zero] at h₁
    exact absurd h₁ (List.not_mem_nil c₁)
  | succ k =>
    rcases Nat.le_total (k + 1) data.length with hle | hge
    · rcases chunk_length_cases (by omega) hle h₁ with hc1 | hc1 <;>
        rcases chunk_length_cases (by omega) hle h₂ with hc2 | hc2 <;>
          omega
    · have hc1 := chunk_length_one hge h₁
      have hc2 := chunk_length_one hge h₂
      omega

theorem chunks_balanced_witness :
    ([(1 : Nat), 2, 3] : List Nat).length ≤ ([(4 : Nat), 5] : List Nat).length + 1 :=
  chunks_balanced [(1 : Nat), 2, 3, 4, 5] 2 [1, 2, 3] (by decide) [4, 5] (by decide)

/-- C4: concatenating all emitted chunks in order reproduces `data` exactly,
whenever `group_count ≥ 1` or `data` is empty. -/
theorem chunks_join_eq {α : Type} (data : List α) (k : Nat)
    (h : 1 ≤ k ∨ data = []) :
    (chunksAtMost data k).flatten = data :=
  chunksAtMost_join k data h

theorem chunks_join_eq_witness :
    (chunksAtMost [(7 : Nat), 8, 9] 2).flatten = [7, 8, 9] :=
  chunks_join_eq [(7 : Nat), 8, 9] 2 (Or.inl (by decide))

/-- C5: a group count of zero yields zero chunks for any input, and an empty
input yields zero chunks for any group count; neither is an error. -/
theorem chunks_degenerate {α : Type} (data : List α) (n : Nat) :
    chunksAtMost data 0 = [] ∧ chunksAtMost ([] : List α) n = [] :=
  ⟨chunksAtMost_zero data, chunksAtMost_nil n⟩

/-- C6: when `group_count ≥ len(data)`, every emitted chunk has length exactly
one, no empty chunk is emitted, and at most `len(data)` chunks are produced. -/
theorem chunks_all_singletons {α : Type} (data : List α) (k : Nat)
    (h : data.length ≤ k) :
    (∀ c ∈ chunksAtMost data k, c.length = 1) ∧
      (∀ c ∈ chunksAtMost data k, c ≠ []) ∧
      (chunksAtMost data k).length ≤ data.length := by
  refine ⟨fun c hc => chunk_length_one h hc, fun c hc => chunks_mem_ne_nil k data c hc, ?_⟩
  have hmap := chunksAtMost_map_length_of_le k data h
  have hcount := congrArg List.length hmap
  rw [List.length_map, List.length_replicate] at hcount
  omega

theorem chunks_all_singletons_witness :
    ([(9 : Nat)] : List Nat).length = 1 ∧
      ([(9 : Nat)] : List Nat) ≠ [] ∧
      (chunksAtMost [(9 : Nat), 11] 5).length ≤ ([(9 : Nat), 11]).length :=
  ⟨(chunks_all_singletons [(9 : Nat), 11] 5 (by decide)).1 [9] (by decide),
    (chunks_all_singletons [(9 : Nat), 11] 5 (by decide)).2.1 [9] (by decide),
    (chunks_all_singletons [(9 : Nat), 11] 5 (by decide)).2.2⟩

/-- C10 (implicit): `next` is safe and productive.  Whenever the remaining
slice is non-empty and `chunk_size ≥ 1`, the split index
`ceil(len / chunk_size)` lies between `1` and `len`, so `split_at` is in
bounds and the emitted chunk is non-empty; every emitted chunk is non-empty,
and the iterator stops after at most `min chunk_size len` emissions. -/
theorem chunks_next_safe {α : Type} (data : List α) (k : Nat) :
    (data ≠ [] → 1 ≤ k →
        1 ≤ divCeil data.length k ∧ divCeil data.length k ≤ data.length) ∧
      (∀ c ∈ chunksAtMost data k, c ≠ []) ∧
      (chunksAtMost data k).length ≤ min k data.length := by
  refine ⟨fun hne hk => ⟨divCeil_pos (List.length_pos.mpr hne) hk, divCeil_le hk⟩,
    fun c hc => chunks_mem_ne_nil k data c hc,
    chunks_length_le k data⟩

theorem chunks_next_safe_witness :
    (1 ≤ divCeil ([(5 : Nat), 6, 7]).length 2 ∧
        divCeil ([(5 : Nat), 6, 7]).length 2 ≤ ([(5 : Nat), 6, 7]).length) ∧
      ([(5 : Nat), 6] : List Nat) ≠ [] ∧
      (chunksAtMost [(5 : Nat), 6, 7] 2).length ≤ min 2 ([(5 : Nat), 6, 7]).length :=
  ⟨(chunks_next_safe [(5 : Nat), 6, 7] 2).1 (by decide) (by decide),
    (chunks_next_safe [(5 : Nat), 6, 7] 2).2.1 [5, 6] (by decide),
    (chunks_next_safe [(5 : Nat), 6, 7] 2).2.2⟩

/-! ### Unique-filter lemmas -/

theorem keepFirsts_sublist {α : Type} [DecidableEq α] (l : List α) :
    List.Sublist (keepFirsts l) l := by
  induction l using keepFirsts.induct with
  | case1 => rw [keepFirsts]
  | case2 x xs ih =>
    rw [keepFirsts]
    exact List.Sublist.cons₂ x (ih.trans (List.filter_sublist xs))

theorem mem_keepFirsts {α : Type} [DecidableEq α] {a : α} {l : List α} :
    a ∈ keepFirsts l ↔ a ∈ l := by
  constructor
  · intro ha
    exact (keepFirsts_sublist l).subset ha
  · intro ha
    induction l using keepFirsts.induct with
    | case1 => exact absurd ha (List.not_mem_nil a)
    | case2 x xs ih =>
      rw [keepFirsts]
      rcases List.mem_cons.mp ha with h | h
      · exact h ▸ List.mem_cons_self a _
      · by_cases hax : a = x
        · exact hax ▸ List.mem_cons_self x _
        · refine List.mem_cons_of_mem x (ih ?_)
          rw [List.mem_filter]
          exact ⟨h, decide_eq_true hax⟩

theorem keepFirsts_nodup {α : Type} [DecidableEq α] (l : List α) :
    (keepFirsts l).Nodup := by
  induction l using keepFirsts.induct with
  | case1 => rw [keepFirsts]; exact List.nodup_nil
  | case2 x xs ih =>
    rw [keepFirsts, List.nodup_cons]
    refine ⟨fun hx => ?_, ih⟩
    have := mem_keepFirsts.mp hx
    rw [List.mem_filter] at this
    simp at this

theorem keepFirsts_of_nodup {α : Type} [DecidableEq α] (l : List α) :
    l.Nodup → keepFirsts l = l := by
  induction l using keepFirsts.induct with
  | case1 => intro _; rw [keepFirsts]
  | case2 x xs ih =>
    intro hnd
    rw [List.nodup_cons] at hnd
    have hfil : xs.filter (fun y => y ≠ x) = xs := by
      rw [List.filter_eq_self]
      intro a ha
      simp only [ne_eq, decide_eq_true_eq]
      intro heq
      exact hnd.1 (heq ▸ ha)
    rw [keepFirsts, hfil]
    rw [hfil] at ih
    rw [ih hnd.2]

theorem uniqueAux_eq_keepFirsts {α : Type} [DecidableEq α] :
    ∀ (l seen : List α),
      uniqueAux l seen = keepFirsts (l.filter (fun y => y ∉ seen)) := by
  intro l
  induction l with
  | nil => intro seen; simp [uniqueAux, keepFirsts]
  | cons x xs ih =>
    intro seen
    by_cases hx : x ∈ seen
    · rw [uniqueAux, if_pos hx, ih seen]
      have hfil : (x :: xs).filter (fun y => y ∉ seen)
          = xs.filter (fun y => y ∉ seen) := by
        rw [List.filter_cons_of_neg]
        intro h
        exact (of_decide_eq_true h) hx
      rw [hfil]
    · rw [uniqueAux, if_neg hx, ih (x :: seen)]
      have hfil : (x :: xs).filter (fun y => y ∉ seen)
          = x :: xs.filter (fun y => y ∉ seen) := by
        rw [List.filter_cons_of_pos]
        exact decide_eq_true hx
      rw [hfil, keepFirsts, List.filter_filter]
      have hcong : xs.filter (fun a => decide (a ≠ x) && decide (a ∉ seen))
          = xs.filter (fun y => y ∉ x :: seen) := by
        apply List.filter_congr
        intro a _
        rw [← Bool.decide_and]
        apply decide_eq_decide.mpr
        constructor
        · rintro ⟨h1, h2⟩ hmem
          rcases List.mem_cons.mp hmem with h | h
          · exact h1 h
          · exact h2 h
        · intro h
          constructor
          · intro heq
            exact h (by rw [heq]; exact List.mem_cons_self x seen)
          · intro hmem
            exact h (List.mem_cons_of_mem x hmem)
      rw [hcong]

theorem getUnique_eq_keepFirsts {α : Type} [DecidableEq α] (l : List α) :
    getUnique l = keepFirsts l := by
  rw [getUnique, uniqueAux_eq_keepFirsts]
  have hfil : l.filter (fun y => y ∉ ([] : List α)) = l := by
    rw [List.filter_eq_self]
    intro a _
    simp
  rw [hfil]

theorem retainSeen_eq_uniqueAux {α : Type} [DecidableEq α] :
    ∀ (l seen : List α), retainSeen l seen = uniqueAux l seen := by
  intro l
  induction l with
  | nil => intro seen; rfl
  | cons x xs ih =>
    intro seen
    by_cases hx : x ∈ seen
    · rw [retainSeen, uniqueAux, if_pos hx, if_pos hx, ih]
    · rw [retainSeen, uniqueAux, if_neg hx, if_neg hx, ih]

theorem dedupAdjacent_sublist {α : Type} [DecidableEq α] (l : List α) :
    List.Sublist (dedupAdjacent l) l := by
  induction l using dedupAdjacent.induct with
  | case1 => rw [dedupAdjacent]
  | case2 x => rw [dedupAdjacent]
  | case3 y rest ih =>
    rw [dedupAdjacent, if_pos rfl]
    exact ih.trans (List.sublist_cons_self y (y :: rest))
  | case4 x y rest hxy ih =>
    rw [dedupAdjacent, if_neg hxy]
    exact List.Sublist.cons₂ x ih

theorem mem_dedupAdjacent {α : Type} [DecidableEq α] {a : α} (l : List α) :
    a ∈ dedupAdjacent l ↔ a ∈ l := by
  constructor
  · exact fun h => (dedupAdjacent_sublist l).subset h
  · intro ha
    induction l using dedupAdjacent.induct with
    | case1 => exact absurd ha (List.not_mem_nil a)
    | case2 x => rw [dedupAdjacent]; exact ha
    | case3 y rest ih =>
      rw [dedupAdjacent, if_pos rfl]
      apply ih
      rcases List.mem_cons.mp ha with h | h
      · rw [h]; exact List.mem_cons_self y rest
      · exact h
    | case4 x y rest hxy ih =>
      rw [dedupAdjacent, if_neg hxy]
      rcases List.mem_cons.mp ha with h | h
      · rw [h]; exact List.mem_cons_self x _
      · exact List.mem_cons_of_mem x (ih h)

theorem dedupAdjacent_nodup {α : Type} [LinearOrder α] :
    ∀ (l : List α), l.Sorted (· ≤ ·) → (dedupAdjacent l).Nodup := by
  intro l
  induction l using dedupAdjacent.induct with
  | case1 => intro _; rw [dedupAdjacent]; exact List.nodup_nil
  | case2 x => intro _; rw [dedupAdjacent]; exact List.nodup_singleton x
  | case3 y rest ih =>
    intro hs
    rw [dedupAdjacent, if_pos rfl]
    exact ih hs.of_cons
  | case4 x y rest hxy ih =>
    intro hs
    rw [dedupAdjacent, if_neg hxy]
    rw [List.nodup_cons]
    have hs' : (y :: rest).Sorted (· ≤ ·) := hs.of_cons
    refine ⟨fun hmem => ?_, ih hs'⟩
    have hx_mem : x ∈ y :: rest := (dedupAdjacent_sublist (y :: rest)).subset hmem
    rw [List.sorted_cons] at hs hs'
    rcases List.mem_cons.mp hx_mem with h | h
    · exact hxy h
    · have h1 : x ≤ y := hs.1 y (List.mem_cons_self y rest)
      have h2 : y ≤ x := hs'.1 x h
      exact hxy (le_antisymm h1 h2)

theorem dedupAdjacent_sorted {α : Type} [LinearOrder α] (l : List α)
    (hs : l.Sorted (· ≤ ·)) : (dedupAdjacent l).Sorted (· ≤ ·) :=
  List.Pairwise.sublist (dedupAdjacent_sublist l) hs

/-! ### Claim theorems for the unique filters -/

/-- C2: the unique iterator emits no repeated value, its output is a
subsequence of the source containing exactly the source's distinct values,
and it equals the subsequence of first occurrences of each distinct value in
original order (`keepFirsts`). -/
theorem getUnique_spec {α : Type} [DecidableEq α] (l : List α) :
    (getUnique l).Nodup ∧ List.Sublist (getUnique l) l ∧
      (∀ x, x ∈ getUnique l ↔ x ∈ l) ∧ getUnique l = keepFirsts l := by
  have h := getUnique_eq_keepFirsts l
  refine ⟨?_, ?_, ?_, h⟩
  · rw [h]; exact keepFirsts_nodup l
  · rw [h]; exact keepFirsts_sublist l
  · intro x; rw [h]; exact mem_keepFirsts

/-- C7: unique-filtering is idempotent, both for the lazy iterator and for the
eager in-place `Vec::unique`. -/
theorem unique_idempotent {α : Type} [DecidableEq α] (l : List α) :
    getUnique (getUnique l) = getUnique l ∧
      vecUnique (vecUnique l) = vecUnique l := by
  have hv : ∀ m : List α, vecUnique m = getUnique m := fun m => by
    rw [vecUnique, getUnique, retainSeen_eq_uniqueAux]
  have hg : ∀ m : List α, getUnique (getUnique m) = getUnique m := by
    intro m
    have hnd : (getUnique m).Nodup := by
      rw [getUnique_eq_keepFirsts m]; exact keepFirsts_nodup m
    rw [getUnique_eq_keepFirsts (getUnique m), keepFirsts_of_nodup _ hnd]
  exact ⟨hg l, by rw [hv (vecUnique l), hv l, hg l]⟩

/-- C8: the eager in-place `Vec::unique` (retain with a seen-set) computes
exactly the same list as collecting the lazy `get_unique` iterator. -/
theorem vecUnique_eq_getUnique {α : Type} [DecidableEq α] (v : List α) :
    vecUnique v = getUnique v := by
  rw [vecUnique, getUnique, retainSeen_eq_uniqueAux]

/-- C9: after `unique_ordered` (sort then adjacent dedup) the vector holds
exactly the distinct values of the original, each once, in ascending order. -/
theorem uniqueOrdered_spec {α : Type} [LinearOrder α] (v : List α) :
    (uniqueOrdered v).Sorted (· ≤ ·) ∧ (uniqueOrdered v).Nodup ∧
      ∀ x, x ∈ uniqueOrdered v ↔ x ∈ v := by
  have hsorted : (List.mergeSort v (fun a b => a ≤ b)).Sorted (· ≤ ·) :=
    List.sorted_mergeSort' v
  have hperm : (List.mergeSort v (fun a b => a ≤ b)).Perm v :=
    List.mergeSort_perm v _
  refine ⟨dedupAdjacent_sorted _ hsorted, dedupAdjacent_nodup _ hsorted, fun x => ?_⟩
  rw [uniqueOrdered, mem_dedupAdjacent]
  exact hperm.mem_iff

end ClaudiofsrLib
